import Mathlib

/-!
dsmcli `runb`: secret normalisation and injection (`cmd/dsm/runb.go`)

A shallow embedding of the secret-to-variable pipeline of `runb.go`:

* `convertJSONToKV` flattens the sub-records of a list of secrets into one
  `map[string]string`;
* `inject` writes one formatted line per variable to the secrets file;
* `injectEnvironmentVariables` selects the per-tool format string.

Go strings are modelled by `String`.  A Go map is modelled by an association
list with pairwise distinct keys; the order in which `range` visits a map is
not fixed by the language, so it is supplied from outside (the list order of an
input map, `Env.rangeOrder` for the map built by the program).  File offsets
are counted in characters, which is the byte offset for single-byte text.
The calls to the logging helper `v(...)` only print to standard output and are
left out.
-/

namespace Dsm

/-! ## Data model -/

/-- A value stored in a `map[string]interface{}` as returned by the SDK's
`ToMap`: either a Go `string`, or a value of some other dynamic type (named by
`dynType`, e.g. `float64`, `nil`). -/
inductive Value where
  | str (s : String)
  | other (dynType : String)
deriving DecidableEq, Repr

/-- The result of `ToMap()` on one sub-record, entries listed in the order in
which `range` visits them. -/
abbrev FieldMap := List (String × Value)

/-- The part of `sdk.Secret` the program reads: the `ToMap()` images of
`GetCloudCredentials()`, `GetPamCredentials()`, `GetEphemeralCredentials()`
and of `GetKeyValues()`. -/
structure Secret where
  cloudCredentials : List FieldMap
  pamCredentials : List FieldMap
  ephemeralCredentials : List FieldMap
  keyValues : FieldMap
deriving DecidableEq, Repr

/-- A Go `map[string]string`, as an association list with distinct keys. -/
abbrev GoMap := List (String × String)

/-- The assignment `m[k] = v`: replace the value of an existing key, or add the
key. -/
def mapSet : GoMap → String → String → GoMap
  | [], k, v => [(k, v)]
  | (k', v') :: rest, k, v =>
    if k' = k then (k', v) :: rest else (k', v') :: mapSet rest k v

/-- The keys of a map or of a sub-record. -/
def keysOf {α : Type} (m : List (String × α)) : List String := m.map Prod.fst

/-- Result of running Go code that either returns a value or aborts with a
run-time panic of a failed type assertion `v.(string)`; `dynType` is the
dynamic type found instead of `string`. -/
inductive Exec (α : Type) where
  | ret (a : α)
  | panic (dynType : String)
deriving DecidableEq, Repr

/-! ## `fmt.Sprintf` on string operands -/

/-- What `Sprintf` appends for operands left over after the format is
consumed: `%!(EXTRA string=a, string=b)`. -/
def extraArgs : List String → List Char
  | [] => []
  | args => "%!(EXTRA ".data ++ (", ".intercalate (args.map fun a => "string=" ++ a)).data ++ [')']

/-- The formatting loop of `fmt.Sprintf` for string operands.  The verbs `%s`
and `%v` print the next operand, `%%` prints a percent sign, a missing operand
prints `%!s(MISSING)`, a trailing `%` prints `%!(NOVERB)`.  Any other verb
character is printed in Go's bad-verb form; flags, widths and the remaining
string verbs do not occur in this program's formats and are not modelled. -/
def sprintfAux : List Char → List String → List Char
  | [], args => extraArgs args
  | c :: rest, args =>
    if c = '%' then
      match rest with
      | [] => "%!(NOVERB)".data
      | verb :: rest' =>
        if verb = '%' then '%' :: sprintfAux rest' args
        else
          match args with
          | [] => '%' :: '!' :: verb :: "(MISSING)".data ++ sprintfAux rest' []
          | a :: args' =>
            if verb = 's' ∨ verb = 'v' then a.data ++ sprintfAux rest' args'
            else '%' :: '!' :: verb :: "(string=".data ++ a.data ++ ')' :: sprintfAux rest' args'
    else c :: sprintfAux rest args

/-- Model of `fmt.Sprintf(format, args...)` with string operands. -/
def Sprintf (format : String) (args : List String) : String :=
  ⟨sprintfAux format.data args⟩

/-! ## Secret normaliser -/

/-- The loop `for k, v := range m { kv[k] = v.(string) }`. -/
def assignAll (kv : GoMap) : FieldMap → Exec GoMap
  | [] => .ret kv
  | (k, .str s) :: rest => assignAll (mapSet kv k s) rest
  | (_, .other ty) :: _ => .panic ty

/-- The loop over a sequence of sub-records, `for _, c := range cs { ... }`. -/
def assignEach (kv : GoMap) : List FieldMap → Exec GoMap
  | [] => .ret kv
  | r :: rest =>
    match assignAll kv r with
    | .ret kv' => assignEach kv' rest
    | .panic ty => .panic ty

/-- The body of the outer loop of `convertJSONToKV` for one secret. -/
def convertSecret (kv : GoMap) (secret : Secret) : Exec GoMap :=
  match assignEach kv secret.cloudCredentials with
  | .panic ty => .panic ty
  | .ret kv1 =>
    match assignEach kv1 secret.pamCredentials with
    | .panic ty => .panic ty
    | .ret kv2 =>
      match assignEach kv2 secret.ephemeralCredentials with
      | .panic ty => .panic ty
      | .ret kv3 => assignAll kv3 secret.keyValues

/-- The outer loop of `convertJSONToKV`, started from the map built so far. -/
def convertFrom (kv : GoMap) : List Secret → Exec GoMap
  | [] => .ret kv
  | secret :: rest =>
    match convertSecret kv secret with
    | .ret kv' => convertFrom kv' rest
    | .panic ty => .panic ty

/-- The function `convertJSONToKV(secrets)`: the outer loop started from the
empty map made by `make(map[string]string)`. -/
def convertJSONToKV (secrets : List Secret) : Exec GoMap :=
  convertFrom [] secrets

/-! ## Injector -/

/-- A Go `error` value: one built by `errors.Errorf`, or one coming from the
operating system through package `os`. -/
inductive GoError where
  | errorf (msg : String)
  | os (e : String)
deriving DecidableEq, Repr

/-- How a call ends: `return nil`, `return err`, or a run-time panic. -/
inductive Outcome where
  | nil
  | error (e : GoError)
  | panic (dynType : String)
deriving DecidableEq, Repr

/-- What the program reads from its surroundings during one call: the
configured file name, the results of the system calls, and the order in which
`range` visits the entries of `kv`. -/
structure Env where
  /-- Value of `viper.GetString("SENHASEGURA_SECRETS_FILE")`. -/
  secretsFile : String
  /-- The error of `os.OpenFile`, if it fails. -/
  openErr : Option String
  /-- The result of the `i`-th `WriteString` (from 0): `none` when the whole
  string is written, `some (n, e)` when `n` characters are written and error
  `e` is returned. -/
  writeErr : Nat → Option (Nat × String)
  /-- The order in which `range kv` visits the entries. -/
  rangeOrder : GoMap → GoMap

/-- The mutable state: the package variables `ToolName` and `kv`, the files on
disk (content by path) and the paths of the descriptors currently open. -/
structure State where
  ToolName : String
  kv : GoMap
  files : String → Option String
  handles : List String

/-- End of a call: the state, how the call ended, and the strings passed to
`WriteString` calls that succeeded, in call order. -/
structure Result where
  state : State
  outcome : Outcome
  writes : List String

/-- Content of a file after writing `s` at offset `off`: the characters there
are overwritten, the file grows if needed (a gap past the end reads as zero). -/
def writeAt (content : String) (off : Nat) (s : String) : String :=
  ⟨content.data.take off ++ List.replicate (off - content.length) (Char.ofNat 0)
    ++ s.data ++ content.data.drop (off + s.length)⟩

/-- The file system after writing `s` at offset `off` of the file `path`. -/
def writeFile (files : String → Option String) (path : String) (off : Nat) (s : String) :
    String → Option String :=
  fun p => if p = path then some (writeAt ((files path).getD "") off s) else files p

/-- The loop `for key, value := range kv { ... }` of `inject` followed by
`file.Close()`; `i` counts the writes made so far and `off` is the offset of
the descriptor.  A failed write returns at once, without closing. -/
def writeLoop (env : Env) (format path : String) :
    List (String × String) → Nat → Nat → State → List String → Result
  | [], _, _, st, ws =>
    ⟨{ st with handles := st.handles.erase path }, .nil, ws⟩
  | (key, value) :: rest, i, off, st, ws =>
    let line := Sprintf format [key, value]
    match env.writeErr i with
    | some (n, e) =>
      ⟨{ st with files := writeFile st.files path off ⟨line.data.take n⟩ }, .error (.os e), ws⟩
    | none =>
      writeLoop env format path rest (i + 1) (off + line.length)
        { st with files := writeFile st.files path off line } (ws ++ [line])

/-- The call `os.OpenFile(path, os.O_CREATE|os.O_RDWR, 0660)` when it succeeds: the
file is created empty if absent and left as it is otherwise; the new
descriptor starts at offset 0. -/
def openFile (st : State) (path : String) : State :=
  { st with
    files := fun p => if p = path then some ((st.files path).getD "") else st.files p
    handles := path :: st.handles }

/-- The name of the output file: the configured one, `.runb.vars` when the
configuration gives the empty string. -/
def secretsPath (env : Env) : String :=
  if env.secretsFile = "" then ".runb.vars" else env.secretsFile

/-- The function `inject(secrets, format)`: normalise the secrets into the
package variable `kv`, return `nil` when it is empty, otherwise open the output
file and write one formatted line per entry. -/
def inject (env : Env) (st : State) (secrets : List Secret) (format : String) : Result :=
  match convertJSONToKV secrets with
  | .panic ty => ⟨st, .panic ty, []⟩
  | .ret m =>
    let st1 := { st with kv := m }
    if m.length = 0 then ⟨st1, .nil, []⟩
    else
      match env.openErr with
      | some e => ⟨st1, .error (.os e), []⟩
      | none =>
        writeLoop env format (secretsPath env) (env.rangeOrder m) 0 0
          (openFile st1 (secretsPath env)) []

/-- The format string passed by `injectGithub`. -/
def githubFormat : String := "echo '%s=%s' >> $GITHUB_ENV\n"
/-- The format string passed by `injectAzureDevops`. -/
def azureDevopsFormat : String := "echo '##vso[task.setvariable variable=%s;issecret=true;]%s'\n"
/-- The format string passed by `injectBamboo`. -/
def bambooFormat : String := "(%s)=(.[%s])\n"
/-- The format string passed by `injectBitbucket`. -/
def bitbucketFormat : String := "export (%s)=\"(.[%s])\"\n"
/-- The format string passed by `injectCircleci`. -/
def circleciFormat : String := "echo '\"'\"'export (%s)=\"(.[%s])\"'\"'\"' >> $BASH_ENV\n"
/-- The format string passed by `injectTeamcity`. -/
def teamcityFormat : String :=
  "echo '\"'\"'##teamcity[setParameter name=\"(%s)\" value=\"(.[%s])\"]'\"'\"'\"\n"
/-- The format string passed by `injectLinux`. -/
def linuxFormat : String := "declare -x %s='%s'\n"

def injectGithub (env : Env) (st : State) (secrets : List Secret) : Result :=
  inject env st secrets githubFormat

def injectAzureDevops (env : Env) (st : State) (secrets : List Secret) : Result :=
  inject env st secrets azureDevopsFormat

def injectBamboo (env : Env) (st : State) (secrets : List Secret) : Result :=
  inject env st secrets bambooFormat

def injectBitbucket (env : Env) (st : State) (secrets : List Secret) : Result :=
  inject env st secrets bitbucketFormat

def injectCircleci (env : Env) (st : State) (secrets : List Secret) : Result :=
  inject env st secrets circleciFormat

def injectTeamcity (env : Env) (st : State) (secrets : List Secret) : Result :=
  inject env st secrets teamcityFormat

def injectLinux (env : Env) (st : State) (secrets : List Secret) : Result :=
  inject env st secrets linuxFormat

/-- The format string of the `errors.Errorf` call in the `default` branch. -/
def invalidToolFormat : String :=
  "Tool '%s' is invalid, it must be one of the following values: github, azure-devops, bamboo, bitbucket, circleci, teamcity or linux"

/-- The function `injectEnvironmentVariables(secrets)`: the `switch ToolName`
with its seven cases and the `default` branch. -/
def injectEnvironmentVariables (env : Env) (st : State) (secrets : List Secret) : Result :=
  if st.ToolName = "github" then injectGithub env st secrets
  else if st.ToolName = "azure-devops" then injectAzureDevops env st secrets
  else if st.ToolName = "bamboo" then injectBamboo env st secrets
  else if st.ToolName = "bitbucket" then injectBitbucket env st secrets
  else if st.ToolName = "circleci" then injectCircleci env st secrets
  else if st.ToolName = "teamcity" then injectTeamcity env st secrets
  else if st.ToolName = "linux" then injectLinux env st secrets
  else ⟨st, .error (.errorf (Sprintf invalidToolFormat [st.ToolName])), []⟩

/-! ## Specification vocabulary -/

/-- The read `m[k]` of a map (or of a sub-record): the value stored under `k`,
if any. -/
def mapGet {α : Type} : List (String × α) → String → Option α
  | [], _ => none
  | (k', v) :: rest, k => if k' = k then some v else mapGet rest k

/-- The sub-records of one secret in the traversal order: cloud credentials,
PAM credentials, ephemeral credentials, then the key-value block. -/
def subRecordsOf (secret : Secret) : List FieldMap :=
  secret.cloudCredentials ++ secret.pamCredentials ++ secret.ephemeralCredentials
    ++ [secret.keyValues]

/-- All sub-records of a sequence of secrets, in processing order. -/
def subRecords : List Secret → List FieldMap
  | [] => []
  | secret :: rest => subRecordsOf secret ++ subRecords rest

/-- Every field name occurring in some sub-record (with repetitions). -/
def fieldNames (secrets : List Secret) : List String :=
  ((subRecords secrets).map keysOf).flatten

/-- Whether a value is a Go `string`. -/
def Value.isStr : Value → Bool
  | .str _ => true
  | .other _ => false

/-- Every field value of every sub-record is a string. -/
def AllStrings (secrets : List Secret) : Prop :=
  ∀ r ∈ subRecords secrets, ∀ p ∈ r, p.2.isStr = true

/-- Some field value of some sub-record is not a string. -/
def HasNonString (secrets : List Secret) : Prop :=
  ∃ r ∈ subRecords secrets, ∃ p ∈ r, p.2.isStr = false

/-- Each sub-record is a map: its field names are pairwise distinct. -/
def WellFormed (secrets : List Secret) : Prop :=
  ∀ r ∈ subRecords secrets, (keysOf r).Nodup

/-- The value of `name` in the latest-processed sub-record that contains
`name`, if there is one. -/
def latestValue (recs : List FieldMap) (name : String) : Option Value :=
  match recs.reverse.find? (fun r => decide (name ∈ keysOf r)) with
  | none => none
  | some r => mapGet r name

/-- The seven tool identifiers of the `switch`. -/
def validTools : List String :=
  ["github", "azure-devops", "bamboo", "bitbucket", "circleci", "teamcity", "linux"]

/-- The string entries of a sub-record, in order. -/
def strEntries : FieldMap → GoMap
  | [] => []
  | (k, .str s) :: rest => (k, s) :: strEntries rest
  | (_, .other _) :: rest => strEntries rest

/-- The assignments `m[k] = v` for a list of entries, in order. -/
def setAll (m : GoMap) : GoMap → GoMap
  | [] => m
  | (k, v) :: rest => setAll (mapSet m k v) rest

/-- The string entries of a sequence of sub-records, in processing order. -/
def allEntries : List FieldMap → GoMap
  | [] => []
  | r :: rest => strEntries r ++ allEntries rest

/-- The format strings of the seven tools. -/
def toolFormats : List String :=
  [githubFormat, azureDevopsFormat, bambooFormat, bitbucketFormat, circleciFormat,
    teamcityFormat, linuxFormat]

/-- The message of the invalid-tool error for the identifier `tool`. -/
def invalidToolMessage (tool : String) : String :=
  "Tool '" ++ tool ++ "' is invalid, it must be one of the following values: github, azure-devops, bamboo, bitbucket, circleci, teamcity or linux"

/-- The string `sub` occurs in the string `s`. -/
def Occurs (sub s : String) : Prop := sub.data <:+: s.data

/-- A secret that only has a key-value block with the single pair `n`, `v`. -/
def singleVar (n v : String) : Secret :=
  ⟨[], [], [], [(n, .str v)]⟩

/-- Surroundings in which no system call fails, the file name is the default
and `range` visits the entries in stored order. -/
def quietEnv : Env :=
  ⟨"", none, fun _ => none, fun m => m⟩

/-- Surroundings like `quietEnv` in which the first `WriteString` writes
nothing and fails. -/
def fullDiskEnv : Env :=
  ⟨"", none, fun _ => some (0, "no space left on device"), fun m => m⟩

/-- A start state with the given tool name, no file on disk and no open
descriptor. -/
def freshState (tool : String) : State :=
  ⟨tool, [], fun _ => none, []⟩

/-- Two secrets whose sub-records share field names. -/
def overlappingSecrets : List Secret :=
  [⟨[[("A", .str "1"), ("B", .str "2")]], [[("A", .str "3")]], [], [("C", .str "4")]⟩,
   ⟨[], [], [[("B", .str "5")], [("D", .str "6")]], [("D", .str "7")]⟩]

/-- A secret with a cloud credential whose field `token` holds a number. -/
def numericSecrets : List Secret :=
  [⟨[[("user", .str "ci"), ("token", .other "float64")]], [], [], [("FOO", .str "bar")]⟩]

instance (secrets : List Secret) : Decidable (AllStrings secrets) := by
  unfold AllStrings; infer_instance

instance (secrets : List Secret) : Decidable (HasNonString secrets) := by
  unfold HasNonString; infer_instance

instance (secrets : List Secret) : Decidable (WellFormed secrets) := by
  unfold WellFormed; infer_instance

/-! ## Properties of the map operations -/

theorem mem_keysOf_mapSet (m : GoMap) (k v k' : String) :
    k' ∈ keysOf (mapSet m k v) ↔ k' = k ∨ k' ∈ keysOf m := by
  induction m with
  | nil => simp [mapSet, keysOf]
  | cons e rest ih =>
    obtain ⟨a, b⟩ := e
    by_cases h : a = k
    · subst h; simp [mapSet, keysOf]
    · simp only [mapSet, h, if_false]
      simp only [keysOf, List.map_cons, List.mem_cons] at ih ⊢
      rw [ih]; tauto

theorem nodup_keysOf_mapSet (m : GoMap) (k v : String) (h : (keysOf m).Nodup) :
    (keysOf (mapSet m k v)).Nodup := by
  induction m with
  | nil => simp [mapSet, keysOf]
  | cons e rest ih =>
    obtain ⟨a, b⟩ := e
    have h' : a ∉ keysOf rest ∧ (keysOf rest).Nodup := by
      simpa [keysOf] using h
    by_cases hk : a = k
    · subst hk; simpa [mapSet, keysOf] using h
    · simp only [mapSet, hk, if_false]
      have hmem := mem_keysOf_mapSet rest k v a
      have hnd := ih h'.2
      simp only [keysOf, List.map_cons, List.nodup_cons] at hmem hnd ⊢
      exact ⟨fun hc => (hmem.1 hc).elim hk h'.1, hnd⟩

theorem mapGet_mapSet (m : GoMap) (k v k' : String) :
    mapGet (mapSet m k v) k' = if k' = k then some v else mapGet m k' := by
  induction m with
  | nil =>
    by_cases h : k = k'
    · subst h; simp [mapSet, mapGet]
    · have h2 : ¬ k' = k := fun e => h e.symm
      simp [mapSet, mapGet, h, h2]
  | cons e rest ih =>
    obtain ⟨a, b⟩ := e
    by_cases h : a = k
    · subst h
      by_cases h2 : a = k'
      · subst h2; simp [mapSet, mapGet]
      · have h3 : ¬ k' = a := fun e => h2 e.symm
        simp [mapSet, mapGet, h2, h3]
    · simp only [mapSet, h, if_false, mapGet, ih]
      by_cases h2 : a = k'
      · subst h2
        simp [h]
      · simp [h2]

theorem mapGet_eq_none_iff {α : Type} (m : List (String × α)) (k : String) :
    mapGet m k = none ↔ k ∉ keysOf m := by
  induction m with
  | nil => simp [mapGet, keysOf]
  | cons e rest ih =>
    obtain ⟨a, b⟩ := e
    by_cases h : a = k
    · subst h; simp [mapGet, keysOf]
    · have h2 : ¬ k = a := fun e => h e.symm
      simp only [mapGet, h, if_false, ih]
      simp [keysOf, h2]

theorem mem_keysOf_setAll (es m : GoMap) (k : String) :
    k ∈ keysOf (setAll m es) ↔ k ∈ keysOf m ∨ k ∈ keysOf es := by
  induction es generalizing m with
  | nil => simp [setAll, keysOf]
  | cons e rest ih =>
    obtain ⟨a, b⟩ := e
    simp only [setAll, ih, mem_keysOf_mapSet]
    simp only [keysOf, List.map_cons, List.mem_cons]
    tauto

theorem nodup_keysOf_setAll (es m : GoMap) (h : (keysOf m).Nodup) :
    (keysOf (setAll m es)).Nodup := by
  induction es generalizing m with
  | nil => simpa [setAll] using h
  | cons e rest ih =>
    obtain ⟨a, b⟩ := e
    exact ih _ (nodup_keysOf_mapSet m a b h)

theorem setAll_append (es es' m : GoMap) :
    setAll m (es ++ es') = setAll (setAll m es) es' := by
  induction es generalizing m with
  | nil => rfl
  | cons e rest ih =>
    obtain ⟨a, b⟩ := e
    simp [setAll, ih]


theorem mapGet_append {α : Type} (a b : List (String × α)) (k : String) :
    mapGet (a ++ b) k = if k ∈ keysOf a then mapGet a k else mapGet b k := by
  induction a with
  | nil => simp [mapGet, keysOf]
  | cons e rest ih =>
    obtain ⟨x, y⟩ := e
    by_cases h : x = k
    · subst h; simp [mapGet, keysOf]
    · have h2 : ¬ k = x := fun e => h e.symm
      have hmem : k ∈ keysOf ((x, y) :: rest) ↔ k ∈ keysOf rest := by
        simp [keysOf, h2]
      have hstep : mapGet ((x, y) :: (rest ++ b)) k = mapGet (rest ++ b) k := by
        simp only [mapGet, h, if_false]
      have hstep2 : mapGet ((x, y) :: rest) k = mapGet rest k := by
        simp only [mapGet, h, if_false]
      rw [List.cons_append, hstep, hstep2, ih]
      by_cases hm : k ∈ keysOf rest
      · rw [if_pos hm, if_pos (hmem.2 hm)]
      · rw [if_neg hm, if_neg (fun hc => hm (hmem.1 hc))]

theorem keysOf_reverse {α : Type} (m : List (String × α)) :
    keysOf m.reverse = (keysOf m).reverse := by
  simp [keysOf]

theorem keysOf_append {α : Type} (a b : List (String × α)) :
    keysOf (a ++ b) = keysOf a ++ keysOf b := by
  simp [keysOf]

theorem mapGet_reverse {α : Type} (m : List (String × α)) (k : String)
    (h : (keysOf m).Nodup) : mapGet m.reverse k = mapGet m k := by
  induction m with
  | nil => rfl
  | cons e rest ih =>
    obtain ⟨x, y⟩ := e
    have h' : x ∉ keysOf rest ∧ (keysOf rest).Nodup := by
      simpa [keysOf] using h
    rw [List.reverse_cons, mapGet_append, ih h'.2, keysOf_reverse]
    by_cases hx : x = k
    · subst hx
      have hn : mapGet rest x = none := (mapGet_eq_none_iff rest x).2 h'.1
      simp [mapGet, h'.1]
    · by_cases hm : k ∈ keysOf rest
      · simp [mapGet, hx, hm]
      · have hn : mapGet rest k = none := (mapGet_eq_none_iff rest k).2 hm
        simp [mapGet, hx, hm, hn]

theorem mapGet_setAll (es m : GoMap) (k : String) :
    mapGet (setAll m es) k = if k ∈ keysOf es then mapGet es.reverse k else mapGet m k := by
  induction es generalizing m with
  | nil => simp [setAll, keysOf]
  | cons e rest ih =>
    obtain ⟨a, b⟩ := e
    have hrev : k ∈ (keysOf rest).reverse ↔ k ∈ keysOf rest := List.mem_reverse
    have hcons : k ∈ keysOf ((a, b) :: rest) ↔ k = a ∨ k ∈ keysOf rest := by
      simp [keysOf]
    rw [setAll, ih, List.reverse_cons, mapGet_append, keysOf_reverse, mapGet_mapSet]
    by_cases hm : k ∈ keysOf rest
    · simp only [hm, hrev, hcons, or_true, if_true]
    · by_cases hk : k = a
      · subst hk; simp [hm, hrev, hcons, mapGet]
      · have hk2 : ¬ a = k := fun e => hk e.symm
        simp [hm, hrev, hcons, hk, hk2, mapGet]

/-! ## The normaliser on string-valued records -/

theorem allEntries_append (a b : List FieldMap) :
    allEntries (a ++ b) = allEntries a ++ allEntries b := by
  induction a with
  | nil => rfl
  | cons r rest ih => simp [allEntries, ih]

theorem assignAll_of_strings (r : FieldMap) (kv : GoMap)
    (h : ∀ p ∈ r, p.2.isStr = true) : assignAll kv r = .ret (setAll kv (strEntries r)) := by
  induction r generalizing kv with
  | nil => rfl
  | cons e rest ih =>
    obtain ⟨k, v⟩ := e
    cases v with
    | str s =>
      simp only [assignAll, strEntries, setAll]
      exact ih _ (fun p hp => h p (List.mem_cons_of_mem _ hp))
    | other ty =>
      have := h (k, .other ty) (List.mem_cons_self _ _)
      simp [Value.isStr] at this

theorem assignAll_ret_strings (r : FieldMap) (kv m : GoMap)
    (h : assignAll kv r = .ret m) : ∀ p ∈ r, p.2.isStr = true := by
  induction r generalizing kv with
  | nil => simp
  | cons e rest ih =>
    obtain ⟨k, v⟩ := e
    cases v with
    | str s =>
      intro p hp
      rcases List.mem_cons.1 hp with rfl | hp
      · rfl
      · exact ih _ h p hp
    | other ty => simp [assignAll] at h

theorem assignEach_of_strings (rs : List FieldMap) (kv : GoMap)
    (h : ∀ r ∈ rs, ∀ p ∈ r, p.2.isStr = true) :
    assignEach kv rs = .ret (setAll kv (allEntries rs)) := by
  induction rs generalizing kv with
  | nil => rfl
  | cons r rest ih =>
    simp only [assignEach, allEntries, setAll_append,
      assignAll_of_strings r kv (h r (List.mem_cons_self _ _))]
    exact ih _ (fun r' hr => h r' (List.mem_cons_of_mem _ hr))

theorem assignEach_ret_strings (rs : List FieldMap) (kv m : GoMap)
    (h : assignEach kv rs = .ret m) : ∀ r ∈ rs, ∀ p ∈ r, p.2.isStr = true := by
  induction rs generalizing kv with
  | nil => simp
  | cons r rest ih =>
    simp only [assignEach] at h
    cases hr : assignAll kv r with
    | panic ty => simp [hr] at h
    | ret kv1 =>
      simp only [hr] at h
      intro r' hr'
      rcases List.mem_cons.1 hr' with rfl | hr'
      · exact assignAll_ret_strings _ _ _ hr
      · exact ih _ h r' hr'

theorem convertSecret_of_strings (secret : Secret) (kv : GoMap)
    (h : ∀ r ∈ subRecordsOf secret, ∀ p ∈ r, p.2.isStr = true) :
    convertSecret kv secret = .ret (setAll kv (allEntries (subRecordsOf secret))) := by
  have h1 : ∀ r ∈ secret.cloudCredentials, ∀ p ∈ r, p.2.isStr = true :=
    fun r hr => h r (by simp [subRecordsOf, hr])
  have h2 : ∀ r ∈ secret.pamCredentials, ∀ p ∈ r, p.2.isStr = true :=
    fun r hr => h r (by simp [subRecordsOf, hr])
  have h3 : ∀ r ∈ secret.ephemeralCredentials, ∀ p ∈ r, p.2.isStr = true :=
    fun r hr => h r (by simp [subRecordsOf, hr])
  have h4 : ∀ p ∈ secret.keyValues, p.2.isStr = true :=
    h secret.keyValues (by simp [subRecordsOf])
  simp only [convertSecret, assignEach_of_strings _ _ h1, assignEach_of_strings _ _ h2,
    assignEach_of_strings _ _ h3, assignAll_of_strings _ _ h4, subRecordsOf, allEntries_append,
    setAll_append, allEntries, List.append_nil]

theorem convertSecret_ret_strings (secret : Secret) (kv m : GoMap)
    (h : convertSecret kv secret = .ret m) :
    ∀ r ∈ subRecordsOf secret, ∀ p ∈ r, p.2.isStr = true := by
  simp only [convertSecret] at h
  cases h1 : assignEach kv secret.cloudCredentials with
  | panic ty => simp [h1] at h
  | ret kv1 =>
    simp only [h1] at h
    cases h2 : assignEach kv1 secret.pamCredentials with
    | panic ty => simp [h2] at h
    | ret kv2 =>
      simp only [h2] at h
      cases h3 : assignEach kv2 secret.ephemeralCredentials with
      | panic ty => simp [h3] at h
      | ret kv3 =>
        simp only [h3] at h
        intro r hr
        simp only [subRecordsOf, List.mem_append, List.mem_singleton] at hr
        rcases hr with ((hr | hr) | hr) | rfl
        · exact assignEach_ret_strings _ _ _ h1 r hr
        · exact assignEach_ret_strings _ _ _ h2 r hr
        · exact assignEach_ret_strings _ _ _ h3 r hr
        · exact assignAll_ret_strings _ _ _ h

theorem convertFrom_of_strings (secrets : List Secret) (kv : GoMap)
    (h : AllStrings secrets) :
    convertFrom kv secrets = .ret (setAll kv (allEntries (subRecords secrets))) := by
  induction secrets generalizing kv with
  | nil => rfl
  | cons secret rest ih =>
    have hs : ∀ r ∈ subRecordsOf secret, ∀ p ∈ r, p.2.isStr = true :=
      fun r hr => h r (by simp [subRecords, hr])
    have hr : AllStrings rest := fun r hr => h r (by simp [subRecords, hr])
    simp only [convertFrom, convertSecret_of_strings _ _ hs, subRecords, allEntries_append,
      setAll_append]
    exact ih _ hr

theorem convertFrom_ret_strings (secrets : List Secret) (kv m : GoMap)
    (h : convertFrom kv secrets = .ret m) : AllStrings secrets := by
  induction secrets generalizing kv with
  | nil => intro r hr; simp [subRecords] at hr
  | cons secret rest ih =>
    simp only [convertFrom] at h
    cases h1 : convertSecret kv secret with
    | panic ty => simp [h1] at h
    | ret kv1 =>
      simp only [h1] at h
      intro r hr
      simp only [subRecords, List.mem_append] at hr
      rcases hr with hr | hr
      · exact convertSecret_ret_strings _ _ _ h1 r hr
      · exact ih _ h r hr

theorem convertJSONToKV_panics (secrets : List Secret) (h : HasNonString secrets) :
    ∃ ty, convertJSONToKV secrets = .panic ty := by
  cases hc : convertJSONToKV secrets with
  | panic ty => exact ⟨ty, rfl⟩
  | ret m =>
    obtain ⟨r, hr, p, hp, hf⟩ := h
    have := convertFrom_ret_strings secrets [] m hc r hr p hp
    rw [this] at hf
    exact absurd hf (by decide)

theorem keysOf_strEntries (r : FieldMap) (h : ∀ p ∈ r, p.2.isStr = true) :
    keysOf (strEntries r) = keysOf r := by
  induction r with
  | nil => rfl
  | cons e rest ih =>
    obtain ⟨k, v⟩ := e
    cases v with
    | str s =>
      have := ih (fun p hp => h p (List.mem_cons_of_mem _ hp))
      simp only [keysOf, strEntries, List.map_cons] at this ⊢
      rw [this]
    | other ty =>
      have := h (k, .other ty) (List.mem_cons_self _ _)
      simp [Value.isStr] at this

theorem mapGet_strEntries (r : FieldMap) (k : String) (h : ∀ p ∈ r, p.2.isStr = true) :
    (mapGet (strEntries r) k).map Value.str = mapGet r k := by
  induction r with
  | nil => rfl
  | cons e rest ih =>
    obtain ⟨a, v⟩ := e
    cases v with
    | str s =>
      have := ih (fun p hp => h p (List.mem_cons_of_mem _ hp))
      by_cases ha : a = k
      · simp [strEntries, mapGet, ha]
      · simp [strEntries, mapGet, ha, this]
    | other ty =>
      have := h (a, .other ty) (List.mem_cons_self _ _)
      simp [Value.isStr] at this

theorem keysOf_allEntries (recs : List FieldMap)
    (h : ∀ r ∈ recs, ∀ p ∈ r, p.2.isStr = true) :
    keysOf (allEntries recs) = (recs.map keysOf).flatten := by
  induction recs with
  | nil => rfl
  | cons r rest ih =>
    rw [allEntries, keysOf_append, keysOf_strEntries r (h r (List.mem_cons_self _ _)),
      ih (fun r' hr => h r' (List.mem_cons_of_mem _ hr))]
    simp

theorem mapGet_allEntries_reverse (recs : List FieldMap) (k : String)
    (hstr : ∀ r ∈ recs, ∀ p ∈ r, p.2.isStr = true)
    (hwf : ∀ r ∈ recs, (keysOf r).Nodup) :
    (mapGet (allEntries recs).reverse k).map Value.str = latestValue recs k := by
  induction recs using List.reverseRecOn with
  | nil => rfl
  | append_singleton init r ih =>
    have hr : ∀ p ∈ r, p.2.isStr = true := hstr r (by simp)
    have hnd : (keysOf r).Nodup := hwf r (by simp)
    have ih' := ih (fun r' h' => hstr r' (by simp [h'])) (fun r' h' => hwf r' (by simp [h']))
    have hk : keysOf (strEntries r) = keysOf r := keysOf_strEntries r hr
    have hrev : k ∈ (keysOf r).reverse ↔ k ∈ keysOf r := List.mem_reverse
    rw [allEntries_append]
    simp only [allEntries, List.append_nil, List.reverse_append]
    rw [mapGet_append, keysOf_reverse, hk]
    by_cases hm : k ∈ keysOf r
    · rw [if_pos (hrev.2 hm), mapGet_reverse _ _ (by rw [hk]; exact hnd),
        mapGet_strEntries r k hr]
      simp [latestValue, hm]
    · rw [if_neg (fun hc => hm (hrev.1 hc)), ih']
      simp [latestValue, hm]

/-! ## Properties of the formats and of the injector -/

set_option maxRecDepth 20000 in
theorem sprintf_invalidToolFormat (tool : String) :
    Sprintf invalidToolFormat [tool] = invalidToolMessage tool := by
  apply String.ext
  simp [Sprintf, invalidToolFormat, invalidToolMessage, sprintfAux, extraArgs]

set_option maxRecDepth 20000 in
theorem occurs_invalidToolMessage (tool : String) :
    Occurs tool (invalidToolMessage tool) ∧
      ∀ t ∈ validTools, Occurs t (invalidToolMessage tool) := by
  have hdata : (invalidToolMessage tool).data = "Tool '".data ++ (tool.data ++
      "' is invalid, it must be one of the following values: github, azure-devops, bamboo, bitbucket, circleci, teamcity or linux".data) := by
    simp [invalidToolMessage]
  refine ⟨?_, ?_⟩
  · exact ⟨"Tool '".data,
      "' is invalid, it must be one of the following values: github, azure-devops, bamboo, bitbucket, circleci, teamcity or linux".data,
      by rw [hdata]; simp⟩
  · intro t ht
    have hin : t.data <:+:
        "' is invalid, it must be one of the following values: github, azure-devops, bamboo, bitbucket, circleci, teamcity or linux".data := by
      revert t; decide
    unfold Occurs
    rw [hdata]
    exact hin.trans ((List.suffix_append _ _).trans (List.suffix_append _ _)).isInfix

theorem writeLoop_outcome (env : Env) (format path : String) (es : List (String × String))
    (i off : Nat) (st : State) (ws : List String) :
    (writeLoop env format path es i off st ws).outcome = .nil ∨
      ∃ e, (writeLoop env format path es i off st ws).outcome = .error (.os e) := by
  induction es generalizing i off st ws with
  | nil => exact Or.inl rfl
  | cons e rest ih =>
    obtain ⟨k, v⟩ := e
    simp only [writeLoop]
    cases hw : env.writeErr i with
    | none => exact ih _ _ _ _
    | some ne => exact Or.inr ⟨ne.2, rfl⟩

theorem inject_outcome_not_errorf (env : Env) (st : State) (secrets : List Secret)
    (format msg : String) : (inject env st secrets format).outcome ≠ .error (.errorf msg) := by
  unfold inject
  cases hc : convertJSONToKV secrets with
  | panic ty => simp
  | ret m =>
    by_cases hm : m.length = 0
    · simp [hm]
    · cases ho : env.openErr with
      | some e => simp [hm]
      | none =>
        simp only [hm, if_false]
        rcases writeLoop_outcome env format (secretsPath env) (env.rangeOrder m) 0 0
          (openFile { st with kv := m } (secretsPath env)) [] with h | ⟨e, h⟩
        · rw [h]; simp
        · rw [h]; simp

theorem writeLoop_all_ok (env : Env) (format path : String) (es : List (String × String))
    (i off : Nat) (st : State) (ws : List String)
    (h : ∀ j, j < es.length → env.writeErr (i + j) = none) :
    (writeLoop env format path es i off st ws).outcome = .nil ∧
      (writeLoop env format path es i off st ws).writes
        = ws ++ es.map (fun e => Sprintf format [e.1, e.2]) ∧
      (writeLoop env format path es i off st ws).state.handles = st.handles.erase path := by
  induction es generalizing i off st ws with
  | nil => simp [writeLoop]
  | cons e rest ih =>
    obtain ⟨k, v⟩ := e
    have h0 : env.writeErr i = none := by simpa using h 0 (by simp)
    have hrest : ∀ j, j < rest.length → env.writeErr (i + 1 + j) = none := by
      intro j hj
      have := h (j + 1) (by simpa using hj)
      rwa [show i + 1 + j = i + (j + 1) by omega]
    simp only [writeLoop, h0]
    obtain ⟨h1, h2, h3⟩ := ih (i + 1) (off + (Sprintf format [k, v]).length)
      { st with files := writeFile st.files path off (Sprintf format [k, v]) }
      (ws ++ [Sprintf format [k, v]]) hrest
    exact ⟨h1, by rw [h2]; simp, h3⟩

theorem sprintf_githubFormat (n v : String) :
    Sprintf githubFormat [n, v] = "echo '" ++ n ++ "=" ++ v ++ "' >> $GITHUB_ENV\n" := by
  apply String.ext
  simp [Sprintf, githubFormat, sprintfAux, extraArgs]

theorem sprintf_azureDevopsFormat (n v : String) :
    Sprintf azureDevopsFormat [n, v]
      = "echo '##vso[task.setvariable variable=" ++ n ++ ";issecret=true;]" ++ v ++ "'\n" := by
  apply String.ext
  simp [Sprintf, azureDevopsFormat, sprintfAux, extraArgs]

theorem sprintf_bambooFormat (n v : String) :
    Sprintf bambooFormat [n, v] = "(" ++ n ++ ")=(.[" ++ v ++ "])\n" := by
  apply String.ext
  simp [Sprintf, bambooFormat, sprintfAux, extraArgs]

theorem sprintf_bitbucketFormat (n v : String) :
    Sprintf bitbucketFormat [n, v] = "export (" ++ n ++ ")=\"(.[" ++ v ++ "])\"\n" := by
  apply String.ext
  simp [Sprintf, bitbucketFormat, sprintfAux, extraArgs]

theorem sprintf_circleciFormat (n v : String) :
    Sprintf circleciFormat [n, v]
      = "echo '\"'\"'export (" ++ n ++ ")=\"(.[" ++ v ++ "])\"'\"'\"' >> $BASH_ENV\n" := by
  apply String.ext
  simp [Sprintf, circleciFormat, sprintfAux, extraArgs]

theorem sprintf_teamcityFormat (n v : String) :
    Sprintf teamcityFormat [n, v]
      = "echo '\"'\"'##teamcity[setParameter name=\"(" ++ n ++ ")\" value=\"(.[" ++ v
        ++ "])\"]'\"'\"'\"\n" := by
  apply String.ext
  simp [Sprintf, teamcityFormat, sprintfAux, extraArgs]

theorem sprintf_linuxFormat (n v : String) :
    Sprintf linuxFormat [n, v] = "declare -x " ++ n ++ "='" ++ v ++ "'\n" := by
  apply String.ext
  simp [Sprintf, linuxFormat, sprintfAux, extraArgs]

theorem sprintf_toolFormat_newline (format : String) (h : format ∈ toolFormats)
    (n v : String) : ∃ body, Sprintf format [n, v] = body ++ "\n" := by
  simp only [toolFormats, List.mem_cons, List.mem_singleton, List.not_mem_nil, or_false] at h
  rcases h with h | h | h | h | h | h | h <;> subst h
  · exact ⟨"echo '" ++ n ++ "=" ++ v ++ "' >> $GITHUB_ENV", by
      rw [sprintf_githubFormat]; apply String.ext; simp⟩
  · exact ⟨"echo '##vso[task.setvariable variable=" ++ n ++ ";issecret=true;]" ++ v ++ "'", by
      rw [sprintf_azureDevopsFormat]; apply String.ext; simp⟩
  · exact ⟨"(" ++ n ++ ")=(.[" ++ v ++ "])", by
      rw [sprintf_bambooFormat]; apply String.ext; simp⟩
  · exact ⟨"export (" ++ n ++ ")=\"(.[" ++ v ++ "])\"", by
      rw [sprintf_bitbucketFormat]; apply String.ext; simp⟩
  · exact ⟨"echo '\"'\"'export (" ++ n ++ ")=\"(.[" ++ v ++ "])\"'\"'\"' >> $BASH_ENV", by
      rw [sprintf_circleciFormat]; apply String.ext; simp⟩
  · exact ⟨"echo '\"'\"'##teamcity[setParameter name=\"(" ++ n ++ ")\" value=\"(.[" ++ v
        ++ "])\"]'\"'\"'\"", by
      rw [sprintf_teamcityFormat]; apply String.ext; simp⟩
  · exact ⟨"declare -x " ++ n ++ "='" ++ v ++ "'", by
      rw [sprintf_linuxFormat]; apply String.ext; simp⟩

theorem writeAt_empty (line : String) : writeAt "" 0 line = line := by
  apply String.ext
  simp [writeAt]

theorem inject_singleVar_fresh (env : Env) (st : State) (n v format : String)
    (hopen : env.openErr = none) (hwrite : env.writeErr 0 = none)
    (horder : (env.rangeOrder [(n, v)]).Perm [(n, v)])
    (hfresh : st.files (secretsPath env) = none) :
    (inject env st [singleVar n v] format).outcome = .nil ∧
      (inject env st [singleVar n v] format).writes = [Sprintf format [n, v]] ∧
      (inject env st [singleVar n v] format).state.files (secretsPath env)
        = some (Sprintf format [n, v]) ∧
      (inject env st [singleVar n v] format).state.handles = st.handles := by
  have hconv : convertJSONToKV [singleVar n v] = .ret [(n, v)] := rfl
  have hord : env.rangeOrder [(n, v)] = [(n, v)] := List.perm_singleton.1 horder
  simp [inject, hconv, hopen, hord, writeLoop, hwrite, openFile, writeFile, hfresh,
    writeAt_empty]

/-! ## The claims -/

/-- C1: on secrets whose sub-records are maps (distinct field names) with
string values only, `convertJSONToKV` returns a map whose keys are pairwise
distinct and are exactly the field names occurring in some sub-record, whose
size is the number of distinct field names, and which maps every name to its
value in the latest-processed sub-record containing it (records in input
order; within a record cloud, PAM, ephemeral credentials, then key-values). -/
theorem convertJSONToKV_last_write_wins (secrets : List Secret)
    (hwf : WellFormed secrets) (hstr : AllStrings secrets) :
    ∃ m, convertJSONToKV secrets = .ret m ∧
      (keysOf m).Nodup ∧
      (∀ k, k ∈ keysOf m ↔ k ∈ fieldNames secrets) ∧
      m.length = (fieldNames secrets).dedup.length ∧
      ∀ k, (mapGet m k).map Value.str = latestValue (subRecords secrets) k := by
  refine ⟨setAll [] (allEntries (subRecords secrets)), convertFrom_of_strings secrets [] hstr,
    nodup_keysOf_setAll _ _ (by simp [keysOf]), ?_, ?_, ?_⟩
  · intro k
    rw [mem_keysOf_setAll, keysOf_allEntries _ hstr]
    simp [keysOf, fieldNames]
  · have hnd : (keysOf (setAll [] (allEntries (subRecords secrets)))).Nodup :=
      nodup_keysOf_setAll _ _ (by simp [keysOf])
    have hperm : (keysOf (setAll [] (allEntries (subRecords secrets)))).Perm
        (fieldNames secrets).dedup := by
      rw [List.perm_ext_iff_of_nodup hnd (List.nodup_dedup _)]
      intro k
      rw [List.mem_dedup, mem_keysOf_setAll, keysOf_allEntries _ hstr]
      simp [keysOf, fieldNames]
    have := hperm.length_eq
    simpa [keysOf] using this
  · intro k
    rw [mapGet_setAll, ← mapGet_allEntries_reverse _ k hstr hwf]
    by_cases hm : k ∈ keysOf (allEntries (subRecords secrets))
    · rw [if_pos hm]
    · rw [if_neg hm]
      have hn : mapGet (allEntries (subRecords secrets)).reverse k = none := by
        rw [mapGet_eq_none_iff, keysOf_reverse]
        exact fun hc => hm (List.mem_reverse.1 hc)
      rw [hn]; rfl

theorem convertJSONToKV_last_write_wins_witness :
    WellFormed overlappingSecrets ∧ AllStrings overlappingSecrets ∧
    ∃ m, convertJSONToKV overlappingSecrets = .ret m ∧
      (keysOf m).Nodup ∧
      (∀ k, k ∈ keysOf m ↔ k ∈ fieldNames overlappingSecrets) ∧
      m.length = (fieldNames overlappingSecrets).dedup.length ∧
      ∀ k, (mapGet m k).map Value.str = latestValue (subRecords overlappingSecrets) k :=
  ⟨by decide, by decide, convertJSONToKV_last_write_wins overlappingSecrets (by decide) (by decide)⟩

/-- C2: when `ToolName` is not one of the seven identifiers (compared exactly),
`injectEnvironmentVariables` returns the `errors.Errorf` error whose message
contains the received identifier and each of the seven valid identifiers, and
the whole state (files, descriptors, `kv`) is as before with nothing written;
when `ToolName` is one of the seven, no `errors.Errorf` error is returned. -/
theorem injectEnvironmentVariables_invalid_tool (env : Env) (st : State)
    (secrets : List Secret) :
    (st.ToolName ∉ validTools →
      (injectEnvironmentVariables env st secrets).outcome =
          .error (.errorf (invalidToolMessage st.ToolName)) ∧
        Occurs st.ToolName (invalidToolMessage st.ToolName) ∧
        (∀ t ∈ validTools, Occurs t (invalidToolMessage st.ToolName)) ∧
        (injectEnvironmentVariables env st secrets).state = st ∧
        (injectEnvironmentVariables env st secrets).writes = []) ∧
    (st.ToolName ∈ validTools →
      ∀ msg, (injectEnvironmentVariables env st secrets).outcome ≠ .error (.errorf msg)) := by
  refine ⟨fun h => ?_, fun h msg => ?_⟩
  · simp only [validTools, List.mem_cons, List.mem_singleton, List.not_mem_nil, or_false,
      not_or] at h
    obtain ⟨h1, h2, h3, h4, h5, h6, h7⟩ := h
    refine ⟨?_, (occurs_invalidToolMessage _).1, (occurs_invalidToolMessage _).2, ?_, ?_⟩
    · simp only [injectEnvironmentVariables, h1, h2, h3, h4, h5, h6, h7, if_false,
        sprintf_invalidToolFormat]
    · simp only [injectEnvironmentVariables, h1, h2, h3, h4, h5, h6, h7, if_false]
    · simp only [injectEnvironmentVariables, h1, h2, h3, h4, h5, h6, h7, if_false]
  · simp only [validTools, List.mem_cons, List.mem_singleton, List.not_mem_nil, or_false] at h
    unfold injectEnvironmentVariables
    rcases h with h | h | h | h | h | h | h <;> rw [h] <;>
      simp only [injectGithub, injectAzureDevops, injectBamboo, injectBitbucket,
        injectCircleci, injectTeamcity, injectLinux] <;>
      exact inject_outcome_not_errorf _ _ _ _ _

theorem injectEnvironmentVariables_invalid_tool_witness :
    (injectEnvironmentVariables quietEnv (freshState "gitlab") [singleVar "FOO" "bar"]).outcome =
        .error (.errorf (invalidToolMessage "gitlab")) ∧
      (injectEnvironmentVariables quietEnv (freshState "gitlab") [singleVar "FOO" "bar"]).state.files
        ".runb.vars" = none ∧
      ∀ msg, (injectEnvironmentVariables quietEnv (freshState "linux")
        [singleVar "FOO" "bar"]).outcome ≠ .error (.errorf msg) :=
  ⟨((injectEnvironmentVariables_invalid_tool quietEnv (freshState "gitlab")
      [singleVar "FOO" "bar"]).1 (by decide)).1,
    by
      rw [((injectEnvironmentVariables_invalid_tool quietEnv (freshState "gitlab")
        [singleVar "FOO" "bar"]).1 (by decide)).2.2.2.1]
      rfl,
    (injectEnvironmentVariables_invalid_tool quietEnv (freshState "linux")
      [singleVar "FOO" "bar"]).2 (by decide)⟩

/-- C3: when the normalised variable set of the secrets is empty, `inject`
returns `nil` for every format, writes nothing, and leaves every file and the
set of open descriptors as they were. -/
theorem inject_empty_noop (env : Env) (st : State) (secrets : List Secret) (format : String)
    (h : convertJSONToKV secrets = .ret []) :
    (inject env st secrets format).outcome = .nil ∧
      (inject env st secrets format).state.files = st.files ∧
      (inject env st secrets format).state.handles = st.handles ∧
      (inject env st secrets format).writes = [] := by
  simp [inject, h]

theorem inject_empty_noop_witness :
    convertJSONToKV [] = .ret [] ∧
      (inject fullDiskEnv (freshState "linux") [] linuxFormat).outcome = .nil ∧
      (inject fullDiskEnv (freshState "linux") [] linuxFormat).state.files
        = (freshState "linux").files ∧
      (inject fullDiskEnv (freshState "linux") [] linuxFormat).state.handles
        = (freshState "linux").handles ∧
      (inject fullDiskEnv (freshState "linux") [] linuxFormat).writes = [] :=
  ⟨rfl, inject_empty_noop fullDiskEnv (freshState "linux") [] linuxFormat rfl⟩

/-- C8 (as the code behaves): when some field value of some sub-record is not
a string, `convertJSONToKV` aborts with the run-time panic of the failed type
assertion and returns no map; `inject` then ends with that panic for every
format, with the state (files, descriptors, `kv`) as before and nothing
written, and so does `injectEnvironmentVariables` under each valid tool. -/
theorem convertJSONToKV_non_string_panics (secrets : List Secret)
    (h : HasNonString secrets) :
    ∃ ty, convertJSONToKV secrets = .panic ty ∧
      (∀ env st format, (inject env st secrets format).outcome = .panic ty ∧
        (inject env st secrets format).state = st ∧
        (inject env st secrets format).writes = []) ∧
      ∀ env st, st.ToolName ∈ validTools →
        (injectEnvironmentVariables env st secrets).outcome = .panic ty ∧
        (injectEnvironmentVariables env st secrets).state = st ∧
        (injectEnvironmentVariables env st secrets).writes = [] := by
  obtain ⟨ty, hty⟩ := convertJSONToKV_panics secrets h
  have hinj : ∀ env st format, (inject env st secrets format).outcome = .panic ty ∧
      (inject env st secrets format).state = st ∧
      (inject env st secrets format).writes = [] := by
    intro env st format
    simp [inject, hty]
  refine ⟨ty, hty, hinj, ?_⟩
  intro env st ht
  simp only [validTools, List.mem_cons, List.mem_singleton, List.not_mem_nil, or_false] at ht
  unfold injectEnvironmentVariables
  rcases ht with h | h | h | h | h | h | h <;> rw [h] <;>
    simp only [injectGithub, injectAzureDevops, injectBamboo, injectBitbucket,
      injectCircleci, injectTeamcity, injectLinux] <;>
    exact hinj _ _ _

theorem convertJSONToKV_non_string_panics_witness :
    HasNonString numericSecrets ∧
    ∃ ty, convertJSONToKV numericSecrets = .panic ty ∧
      (inject quietEnv (freshState "linux") numericSecrets linuxFormat).outcome = .panic ty ∧
      (inject quietEnv (freshState "linux") numericSecrets linuxFormat).state.files ".runb.vars"
        = none :=
  ⟨by decide, by
    obtain ⟨ty, h1, h2, _⟩ := convertJSONToKV_non_string_panics numericSecrets (by decide)
    exact ⟨ty, h1, (h2 quietEnv (freshState "linux") linuxFormat).1, by
      rw [(h2 quietEnv (freshState "linux") linuxFormat).2.1]; rfl⟩⟩

/-- C8, counterexample: for a secret whose cloud credential holds a number in
the field `token`, `convertJSONToKV` panics, and `injectEnvironmentVariables`
under tool `linux` ends in that panic: no error value is returned. -/
theorem non_string_returns_no_error :
    HasNonString numericSecrets ∧
      convertJSONToKV numericSecrets = .panic "float64" ∧
      (injectEnvironmentVariables quietEnv (freshState "linux") numericSecrets).outcome
        = .panic "float64" ∧
      ¬ ∃ e, (injectEnvironmentVariables quietEnv (freshState "linux") numericSecrets).outcome
        = .error e := by
  refine ⟨by decide, by decide, by decide, ?_⟩
  rintro ⟨e, he⟩
  have h : (injectEnvironmentVariables quietEnv (freshState "linux") numericSecrets).outcome
      = .panic "float64" := by decide
  rw [h] at he
  cases he

/-- C5: for a non-empty normalised variable set and any of the seven tool
formats, when the file opens and every write succeeds, `inject` returns `nil`
and the strings it writes are the format rendered with each entry of the set,
in the order `range` visits them, hence each entry exactly once; there are as
many writes as variables and every written string ends with a newline. -/
theorem inject_writes_one_line_per_variable (env : Env) (st : State)
    (secrets : List Secret) (format : String) (m : GoMap)
    (hfmt : format ∈ toolFormats) (hconv : convertJSONToKV secrets = .ret m) (hne : m ≠ [])
    (horder : (env.rangeOrder m).Perm m) (hopen : env.openErr = none)
    (hwrite : ∀ i, i < m.length → env.writeErr i = none) :
    (inject env st secrets format).outcome = .nil ∧
      (inject env st secrets format).writes
        = (env.rangeOrder m).map (fun e => Sprintf format [e.1, e.2]) ∧
      ((inject env st secrets format).writes).Perm
        (m.map (fun e => Sprintf format [e.1, e.2])) ∧
      (inject env st secrets format).writes.length = m.length ∧
      ∀ w ∈ (inject env st secrets format).writes, ∃ body, w = body ++ "\n" := by
  have hlen : m.length ≠ 0 := fun h => hne (List.length_eq_zero.1 h)
  have hw : ∀ j, j < (env.rangeOrder m).length → env.writeErr (0 + j) = none := by
    intro j hj
    rw [horder.length_eq] at hj
    simpa using hwrite j hj
  obtain ⟨h1, h2, _⟩ := writeLoop_all_ok env format (secretsPath env) (env.rangeOrder m) 0 0
    (openFile { st with kv := m } (secretsPath env)) [] hw
  have hinj : inject env st secrets format
      = writeLoop env format (secretsPath env) (env.rangeOrder m) 0 0
          (openFile { st with kv := m } (secretsPath env)) [] := by
    simp [inject, hconv, hlen, hopen]
  rw [hinj, h2]
  refine ⟨h1, by simp, ?_, ?_, ?_⟩
  · simpa using horder.map _
  · simpa using horder.length_eq
  · intro w hw'
    simp only [List.nil_append, List.mem_map] at hw'
    obtain ⟨e, _, rfl⟩ := hw'
    exact sprintf_toolFormat_newline format hfmt e.1 e.2

theorem inject_writes_one_line_per_variable_witness :
    convertJSONToKV overlappingSecrets = .ret [("A", "3"), ("B", "5"), ("C", "4"), ("D", "7")] ∧
      (inject quietEnv (freshState "teamcity") overlappingSecrets teamcityFormat).outcome = .nil ∧
      (inject quietEnv (freshState "teamcity") overlappingSecrets teamcityFormat).writes.length
        = 4 :=
  ⟨by decide,
    (inject_writes_one_line_per_variable quietEnv (freshState "teamcity") overlappingSecrets
      teamcityFormat [("A", "3"), ("B", "5"), ("C", "4"), ("D", "7")] (by decide) (by decide)
      (by decide) (List.Perm.refl _) rfl (fun _ _ => rfl)).1,
    (inject_writes_one_line_per_variable quietEnv (freshState "teamcity") overlappingSecrets
      teamcityFormat [("A", "3"), ("B", "5"), ("C", "4"), ("D", "7")] (by decide) (by decide)
      (by decide) (List.Perm.refl _) rfl (fun _ _ => rfl)).2.2.2.1⟩

/-- C6: with tool `linux` every call is `inject` with the `linux` format, and
the line rendered for a name `n` and value `v` is
`declare -x n='v'` followed by a newline; injecting the single variable `n`,
`v` when the output file does not exist yet, with the open and the write
succeeding, returns `nil`, writes exactly that line and leaves it as the whole
content of the file. -/
theorem linux_line (env : Env) (st : State) (n v : String)
    (htool : st.ToolName = "linux") (hopen : env.openErr = none)
    (hwrite : env.writeErr 0 = none) (horder : (env.rangeOrder [(n, v)]).Perm [(n, v)])
    (hfresh : st.files (secretsPath env) = none) :
    (∀ secrets, injectEnvironmentVariables env st secrets = inject env st secrets linuxFormat) ∧
    Sprintf linuxFormat [n, v] = "declare -x " ++ n ++ "='" ++ v ++ "'\n" ∧
      (injectEnvironmentVariables env st [singleVar n v]).outcome = .nil ∧
      (injectEnvironmentVariables env st [singleVar n v]).writes
        = ["declare -x " ++ n ++ "='" ++ v ++ "'\n"] ∧
      (injectEnvironmentVariables env st [singleVar n v]).state.files (secretsPath env)
        = some ("declare -x " ++ n ++ "='" ++ v ++ "'\n") := by
  have hdisp : ∀ secrets, injectEnvironmentVariables env st secrets
      = inject env st secrets linuxFormat := by
    intro secrets
    simp [injectEnvironmentVariables, htool, injectLinux]
  obtain ⟨h1, h2, h3, _⟩ := inject_singleVar_fresh env st n v linuxFormat hopen hwrite horder hfresh
  rw [hdisp, h1, h2, h3, sprintf_linuxFormat]
  exact ⟨hdisp, rfl, rfl, rfl, rfl⟩

theorem linux_line_witness :
    (injectEnvironmentVariables quietEnv (freshState "linux") [singleVar "FOO" "bar"]).outcome
        = .nil ∧
      (injectEnvironmentVariables quietEnv (freshState "linux")
        [singleVar "FOO" "bar"]).state.files ".runb.vars" = some "declare -x FOO='bar'\n" :=
  ⟨(linux_line quietEnv (freshState "linux") "FOO" "bar" rfl rfl rfl (List.Perm.refl _) rfl).2.2.1,
    (linux_line quietEnv (freshState "linux") "FOO" "bar" rfl rfl rfl (List.Perm.refl _)
      rfl).2.2.2.2⟩

/-- C7 (as the code behaves): with tool `github` every call is `inject` with
the `github` format, and the line rendered for a name `n` and value `v` is the shell command `echo 'n=v' >> $GITHUB_ENV` followed by
a newline; injecting the single variable `n`, `v` when the output file does not
exist yet, with the open and the write succeeding, returns `nil`, writes
exactly that line and leaves it as the whole content of the file. -/
theorem github_line (env : Env) (st : State) (n v : String)
    (htool : st.ToolName = "github") (hopen : env.openErr = none)
    (hwrite : env.writeErr 0 = none) (horder : (env.rangeOrder [(n, v)]).Perm [(n, v)])
    (hfresh : st.files (secretsPath env) = none) :
    (∀ secrets, injectEnvironmentVariables env st secrets = inject env st secrets githubFormat) ∧
    Sprintf githubFormat [n, v] = "echo '" ++ n ++ "=" ++ v ++ "' >> $GITHUB_ENV\n" ∧
      (injectEnvironmentVariables env st [singleVar n v]).outcome = .nil ∧
      (injectEnvironmentVariables env st [singleVar n v]).writes
        = ["echo '" ++ n ++ "=" ++ v ++ "' >> $GITHUB_ENV\n"] ∧
      (injectEnvironmentVariables env st [singleVar n v]).state.files (secretsPath env)
        = some ("echo '" ++ n ++ "=" ++ v ++ "' >> $GITHUB_ENV\n") := by
  have hdisp : ∀ secrets, injectEnvironmentVariables env st secrets
      = inject env st secrets githubFormat := by
    intro secrets
    simp [injectEnvironmentVariables, htool, injectGithub]
  obtain ⟨h1, h2, h3, _⟩ := inject_singleVar_fresh env st n v githubFormat hopen hwrite horder hfresh
  rw [hdisp, h1, h2, h3, sprintf_githubFormat]
  exact ⟨hdisp, rfl, rfl, rfl, rfl⟩

theorem github_line_witness :
    (injectEnvironmentVariables quietEnv (freshState "github") [singleVar "FOO" "bar"]).outcome
        = .nil ∧
      (injectEnvironmentVariables quietEnv (freshState "github")
        [singleVar "FOO" "bar"]).state.files ".runb.vars"
        = some "echo 'FOO=bar' >> $GITHUB_ENV\n" :=
  ⟨(github_line quietEnv (freshState "github") "FOO" "bar" rfl rfl rfl (List.Perm.refl _) rfl).2.2.1,
    (github_line quietEnv (freshState "github") "FOO" "bar" rfl rfl rfl (List.Perm.refl _)
      rfl).2.2.2.2⟩

/-- C7, counterexample: with tool `github`, injecting `FOO`, `bar` into a fresh
file writes the line `echo 'FOO=bar' >> $GITHUB_ENV`, so the line and the file
content differ from `FOO=bar` followed by a newline. -/
theorem github_writes_echo_command :
    Sprintf githubFormat ["FOO", "bar"] ≠ "FOO" ++ "=" ++ "bar" ++ "\n" ∧
      (injectEnvironmentVariables quietEnv (freshState "github") [singleVar "FOO" "bar"]).writes
        = ["echo 'FOO=bar' >> $GITHUB_ENV\n"] ∧
      (injectEnvironmentVariables quietEnv (freshState "github")
        [singleVar "FOO" "bar"]).state.files ".runb.vars" ≠ some "FOO=bar\n" := by
  refine ⟨by decide, by decide, by decide⟩

/-- C10 (as the code behaves): with tool `bamboo` every call is `inject` with
the `bamboo` format, and the line rendered for a name `n` and value `v` is `(n)=(.[v])` followed by a newline; injecting the single
variable `n`, `v` when the output file does not exist yet, with the open and
the write succeeding, returns `nil`, writes exactly that line and leaves it as
the whole content of the file. -/
theorem bamboo_line (env : Env) (st : State) (n v : String)
    (htool : st.ToolName = "bamboo") (hopen : env.openErr = none)
    (hwrite : env.writeErr 0 = none) (horder : (env.rangeOrder [(n, v)]).Perm [(n, v)])
    (hfresh : st.files (secretsPath env) = none) :
    (∀ secrets, injectEnvironmentVariables env st secrets = inject env st secrets bambooFormat) ∧
    Sprintf bambooFormat [n, v] = "(" ++ n ++ ")=(.[" ++ v ++ "])\n" ∧
      (injectEnvironmentVariables env st [singleVar n v]).outcome = .nil ∧
      (injectEnvironmentVariables env st [singleVar n v]).writes
        = ["(" ++ n ++ ")=(.[" ++ v ++ "])\n"] ∧
      (injectEnvironmentVariables env st [singleVar n v]).state.files (secretsPath env)
        = some ("(" ++ n ++ ")=(.[" ++ v ++ "])\n") := by
  have hdisp : ∀ secrets, injectEnvironmentVariables env st secrets
      = inject env st secrets bambooFormat := by
    intro secrets
    simp [injectEnvironmentVariables, htool, injectBamboo]
  obtain ⟨h1, h2, h3, _⟩ := inject_singleVar_fresh env st n v bambooFormat hopen hwrite horder hfresh
  rw [hdisp, h1, h2, h3, sprintf_bambooFormat]
  exact ⟨hdisp, rfl, rfl, rfl, rfl⟩

theorem bamboo_line_witness :
    (injectEnvironmentVariables quietEnv (freshState "bamboo") [singleVar "FOO" "bar"]).outcome
        = .nil ∧
      (injectEnvironmentVariables quietEnv (freshState "bamboo")
        [singleVar "FOO" "bar"]).state.files ".runb.vars" = some "(FOO)=(.[bar])\n" :=
  ⟨(bamboo_line quietEnv (freshState "bamboo") "FOO" "bar" rfl rfl rfl (List.Perm.refl _) rfl).2.2.1,
    (bamboo_line quietEnv (freshState "bamboo") "FOO" "bar" rfl rfl rfl (List.Perm.refl _)
      rfl).2.2.2.2⟩

/-- C10, counterexample: with tool `bamboo` the line rendered for `FOO`, `bar`
is `(FOO)=(.[bar])`, not `(FOO)=(bar)`, each followed by a newline. -/
theorem bamboo_brackets_around_value :
    Sprintf bambooFormat ["FOO", "bar"] = "(FOO)=(.[bar])\n" ∧
      Sprintf bambooFormat ["FOO", "bar"] ≠ "(" ++ "FOO" ++ ")=(" ++ "bar" ++ ")\n" ∧
      (injectEnvironmentVariables quietEnv (freshState "bamboo") [singleVar "FOO" "bar"]).writes
        = ["(FOO)=(.[bar])\n"] := by
  refine ⟨by decide, by decide, by decide⟩

/-- C4, the code at the failing input: two calls of `inject` with tool `linux`
on the same path, first with `FOO`, `bar`, then with `B`, `2`, all system
calls succeeding.  After the first call the file holds the first line; after
the second call the second line has overwritten the file from offset 0 and
only the last four characters of the first line remain behind it. -/
theorem second_inject_overwrites_first :
    (injectLinux quietEnv (freshState "linux") [singleVar "FOO" "bar"]).outcome = .nil ∧
      (injectLinux quietEnv (freshState "linux") [singleVar "FOO" "bar"]).state.files ".runb.vars"
        = some "declare -x FOO='bar'\n" ∧
      (injectLinux quietEnv (injectLinux quietEnv (freshState "linux")
        [singleVar "FOO" "bar"]).state [singleVar "B" "2"]).outcome = .nil ∧
      (injectLinux quietEnv (injectLinux quietEnv (freshState "linux")
        [singleVar "FOO" "bar"]).state [singleVar "B" "2"]).state.files ".runb.vars"
        = some "declare -x B='2'\nar'\n" := by
  refine ⟨by decide, by decide, by decide, by decide⟩

/-- C9, the code at the failing input: `inject` with tool `linux` on `FOO`,
`bar` when the first write fails.  The call returns the error of the write and
makes no further write, but the descriptor of the output file is still open;
when the write succeeds the descriptor is closed. -/
theorem failed_write_leaves_descriptor_open :
    (injectLinux fullDiskEnv (freshState "linux") [singleVar "FOO" "bar"]).outcome
        = .error (.os "no space left on device") ∧
      (injectLinux fullDiskEnv (freshState "linux") [singleVar "FOO" "bar"]).writes = [] ∧
      (injectLinux fullDiskEnv (freshState "linux") [singleVar "FOO" "bar"]).state.handles
        = [".runb.vars"] ∧
      (injectLinux quietEnv (freshState "linux") [singleVar "FOO" "bar"]).state.handles = [] := by
  refine ⟨by decide, by decide, by decide, by decide⟩

end Dsm
